import Mathlib

set_option maxRecDepth 40000

/-!
# Verification of the cryptarch result-storage engine

Shallow embedding of the storage data model and operations of
`pkg/storage` (`Values`, `Result`, `Results` and their methods) and of the
tokenizer `TokenizeResult` from `internal/lib/results.go`, together with
theorems settling the specification claims.

Modelling conventions:
* `time.Time` instants are modelled as integers (`ℤ`); `Time.Compare` is
  integer comparison and the zero `time.Time` is `0`.
* Go's dynamically typed token values (`interface{}` holding `int64`,
  `float64` or `string`) are modelled by the tagged union `Token`.
  `float64` values are modelled exactly: a parsed finite decimal is kept as
  the exact rational it denotes (IEEE-754 rounding is not modelled; the
  concrete values appearing in theorems, such as `4.5`, are exactly
  representable, so the abstraction is value-faithful there).
* A Go run-time panic is modelled by `Option.none` in the result type of
  the operation that can panic.
-/

namespace Cryptarch

/-- Value of a Go `float64` produced by `strconv.ParseFloat`: a finite
value (kept as an exact rational), a signed infinity, or NaN. -/
inductive FloatVal where
  | finite (q : ℚ)
  | inf (neg : Bool)
  | nan
deriving DecidableEq

/-- One tokenized value: Go `interface{}` holding `int64`, `float64` or
`string` in `storage.Values`. -/
inductive Token where
  | integer (i : ℤ)
  | float (f : FloatVal)
  | text (s : String)
deriving DecidableEq

/-- `type Values []interface{}` — tokenized result value. -/
abbrev Values := List Token

/-- Go slice indexing `v[i]` for an `int` index: the element when
`0 ≤ i < len(v)`, otherwise a run-time panic (modelled as `none`). -/
def goIndex (v : Values) : ℤ → Option Token
  | .ofNat n => v.get? n
  | .negSucc _ => none

/-- `func (v Values) Get(index int) (result interface{})` from
`pkg/storage`: if `len(v) > index` the result is `v[index]` (a panic when
`index < 0`), otherwise the zero `interface{}` value `nil` is returned.
The outer `Option` is the panic layer (`none` = panic); the inner
`Option` is the `interface{}` value (`none` = `nil`, the absent marker). -/
def Values.Get (v : Values) (index : ℤ) : Option (Option Token) :=
  if (v.length : ℤ) > index then
    (goIndex v index).map some
  else
    some none

/-- `type Result struct { Time time.Time; Value string; Values Values }`. -/
structure Result where
  time : ℤ
  value : String
  values : Values
deriving DecidableEq

/-- The zero `Result{}` value: zero time, empty raw value, empty values. -/
def emptyResult : Result := { time := 0, value := "", values := [] }

/-- `func (r *Result) IsEmpty() bool` — `reflect.DeepEqual(*r, Result{})`. -/
def Result.IsEmpty (r : Result) : Bool := decide (r = emptyResult)

/-- `type Results struct { Labels []string; Results []Result }`. -/
structure Results where
  labels : List String
  results : List Result
deriving DecidableEq

/-- Loop body of `func (r *Results) get(time time.Time) Result`: linear
scan returning the first `Result` whose `Time` compares equal, or the
empty `Result{}` when the scan finds nothing. -/
def getFirst : List Result → ℤ → Result
  | [], _ => emptyResult
  | x :: rest, t => if x.time = t then x else getFirst rest t

/-- `func (r *Results) get(time time.Time) Result` from `pkg/storage`. -/
def Results.get (r : Results) (t : ℤ) : Result := getFirst r.results t

/-- Loop body of `func (r *Results) getRange(startTime, endTime) []Result`:
scan forward; skip results with `Time < startTime`; `break` as soon as a
result has `Time > endTime`; append every other result. -/
def getRangeList : List Result → ℤ → ℤ → List Result
  | [], _, _ => []
  | x :: rest, s, e =>
    if s ≤ x.time then
      if e < x.time then []
      else x :: getRangeList rest s e
    else getRangeList rest s e

/-- `func (r *Results) getRange(startTime, endTime time.Time) []Result`. -/
def Results.getRange (r : Results) (s e : ℤ) : List Result :=
  getRangeList r.results s e

/-- `slices.Index` from `golang.org/x/exp/slices`: index of the first
occurrence, or `-1`; `i` is the running loop index. -/
def slicesIndexAux : List String → String → ℤ → ℤ
  | [], _, _ => -1
  | a :: rest, x, i => if a = x then i else slicesIndexAux rest x (i + 1)

/-- `func (r *Results) getValueIndex(filter string) int` —
`slices.Index(r.Labels, filter)`. -/
def Results.getValueIndex (r : Results) (filter : String) : ℤ :=
  slicesIndexAux r.labels filter 0

/-- `func (r *Results) put(value string, values ...interface{}) Result`:
builds `Result{Time: time.Now(), Value: value, Values: values}`, appends
it to `r.Results` and returns it.  The call instant `time.Now()` is passed
in as the parameter `now`. -/
def Results.put (r : Results) (now : ℤ) (value : String) (values : Values) :
    Results × Result :=
  let next : Result := { time := now, value := value, values := values }
  ({ r with results := r.results ++ [next] }, next)

/-! ### Tokenizer: `TokenizeResult` from `internal/lib/results.go`

`TokenizeResult` drives a `text/scanner.Scanner` whose `IsIdentRune` is
`!unicode.IsSpace(r)` and classifies each `TokenText` with
`strconv.ParseInt(next, 10, 0)` first and `strconv.ParseFloat(next, 10)`
second, falling back to the raw token string. -/

/-- The scanner's whitespace-skip set: `Scanner.Init` sets
`s.Whitespace = GoWhitespace = 1<<'\t' | 1<<'\n' | 1<<'\r' | 1<<' '`. -/
def inGoWhitespaceMask (c : Char) : Bool :=
  c == '\t' || c == '\n' || c == '\r' || c == ' '

/-- Go's `unicode.IsSpace`: the Latin-1 fast path
(`\t \n \v \f \r ' ' U+0085 U+00A0`) plus the `White_Space` range table
(U+1680, U+2000–U+200A, U+2028, U+2029, U+202F, U+205F, U+3000). -/
def goIsSpace (c : Char) : Bool :=
  let n := c.toNat
  n == 9 || n == 10 || n == 11 || n == 12 || n == 13 || n == 32 ||
    n == 0x85 || n == 0xA0 || n == 0x1680 ||
    (decide (0x2000 ≤ n) && decide (n ≤ 0x200A)) ||
    n == 0x2028 || n == 0x2029 || n == 0x202F || n == 0x205F || n == 0x3000

/-- The scanner of `TokenizeResult`, rune by rune; `acc` is the ident run
being consumed by `scanIdentifier` (empty between tokens).  An ident rune
(`IsIdentRune`, i.e. `!unicode.IsSpace`) extends the current run; a space
rune ends it, and is then either skipped (when in the whitespace-skip
set) or — the scanner's default case, e.g. `\v` — emitted as a
single-rune token of its own.  EOF ends the final run.  Returns the
`TokenText` of every token, in order. -/
def scanAux : List Char → List Char → List (List Char)
  | [], acc => if acc.isEmpty then [] else [acc]
  | c :: cs, acc =>
    if !goIsSpace c then scanAux cs (acc ++ [c])
    else
      (if acc.isEmpty then [] else [acc]) ++
        (if inGoWhitespaceMask c then scanAux cs []
         else [c] :: scanAux cs [])

/-- Token texts produced by the scanner on the whole input. -/
def scanTexts (l : List Char) : List (List Char) := scanAux l []

/-- Modelled from the spec: the splitting the spec describes — every
maximal run of non-whitespace (`unicode.IsSpace`) characters is one
token, and nothing else is; `acc` is the current run. -/
def specSplitAux : List Char → List Char → List (List Char)
  | [], acc => if acc.isEmpty then [] else [acc]
  | c :: cs, acc =>
    if !goIsSpace c then specSplitAux cs (acc ++ [c])
    else (if acc.isEmpty then [] else [acc]) ++ specSplitAux cs []

/-- Maximal non-whitespace runs of the input. -/
def specWhitespaceRuns (l : List Char) : List (List Char) := specSplitAux l []

/-- ASCII lower-casing, as `strconv`'s `lower` is used for matching. -/
def asciiLower (c : Char) : Char :=
  if decide (65 ≤ c.toNat) && decide (c.toNat ≤ 90) then
    Char.ofNat (c.toNat + 32)
  else c

/-- Hexadecimal digit in Go's sense: `0-9`, `a-f`, `A-F`. -/
def isHexDigitGo (c : Char) : Bool :=
  c.isDigit ||
    (decide (97 ≤ (asciiLower c).toNat) && decide ((asciiLower c).toNat ≤ 102))

/-- Decimal digit or the `_` digit separator. -/
def isDigitOrUnd (c : Char) : Bool := c.isDigit || c == '_'

/-- Hexadecimal digit or the `_` digit separator. -/
def isHexOrUnd (c : Char) : Bool := isHexDigitGo c || c == '_'

/-- Numeric value of a digit (decimal or hexadecimal). -/
def hexDigitVal (c : Char) : ℕ :=
  if c.isDigit then c.toNat - 48 else (asciiLower c).toNat - 87

/-- Value of a digit string in the given base. -/
def natOfDigits (base : ℕ) (l : List Char) : ℕ :=
  l.foldl (fun acc c => acc * base + hexDigitVal c) 0

/-- `strconv.ParseInt(next, 10, 0)` (`bitSize` 0 is the 64-bit `int`):
optional sign, one or more decimal digits (no `_` separators at base 10),
value within `[-2^63, 2^63-1]`; `none` is a syntax or range error. -/
def parseGoInt (s : List Char) : Option ℤ :=
  match s with
  | [] => none
  | _ =>
    let (neg, digits) : Bool × List Char :=
      match s with
      | '+' :: rest => (false, rest)
      | '-' :: rest => (true, rest)
      | _ => (false, s)
    if digits.isEmpty then none
    else if digits.all Char.isDigit then
      let v : ℤ := (natOfDigits 10 digits : ℕ)
      let i : ℤ := if neg then -v else v
      if -((2 ^ 63 : ℕ) : ℤ) ≤ i ∧ i ≤ ((2 ^ 63 : ℕ) : ℤ) - 1 then some i
      else none
    else none

/-- `strconv.special`: case-insensitive `inf`/`infinity` with optional
sign, and unsigned `nan`; `ParseFloat` accepts these only when they span
the whole token. -/
def parseSpecial (s : List Char) : Option FloatVal :=
  match s with
  | [] => none
  | c :: rest =>
    let (neg, body) : Bool × List Char :=
      if c == '+' then (false, rest)
      else if c == '-' then (true, rest)
      else (false, s)
    let low := body.map asciiLower
    if low == "inf".data || low == "infinity".data then some (.inf neg)
    else if (!(c == '+') && !(c == '-')) && low == "nan".data then some .nan
    else none

/-- State loop of `strconv.underscoreOK`; `saw` is `'^'` at the start of
the number, `'0'` after a digit (or base prefix), `'_'` after an
underscore, `'!'` after anything else. -/
def underscoreOKLoop (hex : Bool) : List Char → Char → Bool
  | [], saw => !(saw == '_')
  | c :: rest, saw =>
    if c.isDigit || (hex && isHexDigitGo c) then underscoreOKLoop hex rest '0'
    else if c == '_' then
      if saw == '0' then underscoreOKLoop hex rest '_' else false
    else if saw == '_' then false
    else underscoreOKLoop hex rest '!'

/-- `strconv.underscoreOK`: underscores may appear only between digits or
between a base prefix and a digit. -/
def underscoreOK (s : List Char) : Bool :=
  let s1 : List Char :=
    match s with
    | c :: rest => if c == '+' || c == '-' then rest else s
    | [] => s
  match s1 with
  | c0 :: c1 :: rest =>
    if c0 == '0' && (asciiLower c1 == 'b' || asciiLower c1 == 'o' ||
        asciiLower c1 == 'x') then
      underscoreOKLoop (asciiLower c1 == 'x') rest '0'
    else underscoreOKLoop false s1 '^'
  | _ => underscoreOKLoop false s1 '^'

/-- Exact rational `±m·base^d` (the value a parsed mantissa/exponent pair
denotes, before IEEE-754 rounding, which this model abstracts away). -/
def mantExpValue (base : ℕ) (neg : Bool) (m : ℕ) (d : ℤ) : ℚ :=
  let sign : ℤ := if neg then -1 else 1
  if 0 ≤ d then mkRat (sign * ((m * base ^ d.toNat : ℕ) : ℤ)) 1
  else mkRat (sign * (m : ℤ)) (base ^ (-d).toNat)

/-- The smallest magnitude that `ParseFloat` reports as a range error:
values of magnitude `≥ 2^1024 - 2^970` round (to nearest, ties to even)
past the largest finite `float64`, yielding `±Inf` with `ErrRange`. -/
def floatOverflowBound : ℚ := mkRat (((2 ^ 1024 - 2 ^ 970 : ℕ) : ℤ)) 1

/-- Whether a decoded decimal magnitude overflows `float64`. -/
def floatOverflows (q : ℚ) : Bool :=
  decide (q ≤ -floatOverflowBound) || decide (floatOverflowBound ≤ q)

/-- Decimal branch of `strconv.readFloat` (after the optional sign):
digits with optional `_` separators and at most one `.`, at least one
digit, then an optional `e`/`E` exponent whose first character after the
optional sign must be a digit; the whole token must be consumed.  Returns
the exact rational value. -/
def parseDecFloat (neg : Bool) (body : List Char) : Option ℚ :=
  let ipart := body.takeWhile isDigitOrUnd
  let r1 := body.dropWhile isDigitOrUnd
  let (fpart, r2) : List Char × List Char :=
    match r1 with
    | '.' :: rest => (rest.takeWhile isDigitOrUnd, rest.dropWhile isDigitOrUnd)
    | _ => ([], r1)
  let idigits := ipart.filter Char.isDigit
  let fdigits := fpart.filter Char.isDigit
  if idigits.isEmpty && fdigits.isEmpty then none
  else
    let expPart : Option ℤ :=
      match r2 with
      | [] => some 0
      | c :: rest =>
        if asciiLower c == 'e' then
          let (esign, r3) : ℤ × List Char :=
            match rest with
            | '+' :: rr => (1, rr)
            | '-' :: rr => (-1, rr)
            | _ => (1, rest)
          match r3 with
          | [] => none
          | d :: _ =>
            if d.isDigit then
              if (r3.dropWhile isDigitOrUnd).isEmpty then
                some (esign *
                  ((natOfDigits 10 ((r3.takeWhile isDigitOrUnd).filter
                    Char.isDigit) : ℕ) : ℤ))
              else none
            else none
        else none
    match expPart with
    | none => none
    | some e =>
      some (mantExpValue 10 neg (natOfDigits 10 (idigits ++ fdigits))
        (e - fdigits.length))

/-- Hexadecimal branch of `strconv.readFloat` (after sign and `0x`):
hex digits with optional `_` separators and at most one `.`, at least one
digit, then a mandatory `p`/`P` binary exponent written in decimal.
Returns the exact rational value `±m·2^(e − 4·fracDigits)`. -/
def parseHexFloat (neg : Bool) (body : List Char) : Option ℚ :=
  let ipart := body.takeWhile isHexOrUnd
  let r1 := body.dropWhile isHexOrUnd
  let (fpart, r2) : List Char × List Char :=
    match r1 with
    | '.' :: rest => (rest.takeWhile isHexOrUnd, rest.dropWhile isHexOrUnd)
    | _ => ([], r1)
  let idigits := ipart.filter isHexDigitGo
  let fdigits := fpart.filter isHexDigitGo
  if idigits.isEmpty && fdigits.isEmpty then none
  else
    let expPart : Option ℤ :=
      match r2 with
      | [] => none
      | c :: rest =>
        if asciiLower c == 'p' then
          let (esign, r3) : ℤ × List Char :=
            match rest with
            | '+' :: rr => (1, rr)
            | '-' :: rr => (-1, rr)
            | _ => (1, rest)
          match r3 with
          | [] => none
          | d :: _ =>
            if d.isDigit then
              if (r3.dropWhile isDigitOrUnd).isEmpty then
                some (esign *
                  ((natOfDigits 10 ((r3.takeWhile isDigitOrUnd).filter
                    Char.isDigit) : ℕ) : ℤ))
              else none
            else none
        else none
    match expPart with
    | none => none
    | some e =>
      some (mantExpValue 2 neg (natOfDigits 16 (idigits ++ fdigits))
        (e - 4 * fdigits.length))

/-- `strconv.ParseFloat(next, 10)` (a `bitSize` other than 32 behaves as
64): the special values, or a decimal or hexadecimal literal consumed in
full with valid underscore placement and magnitude below the overflow
bound.  `none` is a syntax or range error.  Finite values are kept exact;
IEEE-754 rounding (which never affects acceptance, except at the overflow
bound modelled by `floatOverflows`) is abstracted away. -/
def parseGoFloat (s : List Char) : Option FloatVal :=
  match parseSpecial s with
  | some v => some v
  | none =>
    match s with
    | [] => none
    | _ =>
      let (neg, body) : Bool × List Char :=
        match s with
        | '+' :: rest => (false, rest)
        | '-' :: rest => (true, rest)
        | _ => (false, s)
      let q? : Option ℚ :=
        match body with
        | c0 :: c1 :: rest =>
          if c0 == '0' && asciiLower c1 == 'x' && !rest.isEmpty then
            parseHexFloat neg rest
          else parseDecFloat neg body
        | _ => parseDecFloat neg body
      match q? with
      | none => none
      | some q =>
        if !underscoreOK s then none
        else if floatOverflows q then none
        else some (.finite q)

/-- Classification of one token text, in the order of the loop body of
`TokenizeResult`: integer parse first, then float parse, then the raw
string. -/
def classifyToken (t : List Char) : Token :=
  match parseGoInt t with
  | some i => .integer i
  | none =>
    match parseGoFloat t with
    | some f => .float f
    | none => .text (String.mk t)

/-- `func TokenizeResult(result string) (parsedResult []interface{})`. -/
def TokenizeResult (s : String) : List Token :=
  (scanTexts s.data).map classifyToken

/-- Modelled from the spec: the behaviour the spec ascribes to the
tokenizer — split the input into maximal non-whitespace runs and type
each run by integer parse, then float parse, then text. -/
def specTokenize (s : String) : List Token :=
  (specWhitespaceRuns s.data).map classifyToken

/-! ### Label normalizer

`normalizeString` of `pkg/storage` is exercised by `TestNormalizeString`
but its defining source file is not part of the sources at hand, so it is
modelled from the spec. -/

/-- A character the normalizer keeps: `[A-Za-z0-9_]`. -/
def isLabelChar (c : Char) : Bool :=
  (decide (65 ≤ c.toNat) && decide (c.toNat ≤ 90)) ||
    (decide (97 ≤ c.toNat) && decide (c.toNat ≤ 122)) ||
    (decide (48 ≤ c.toNat) && decide (c.toNat ≤ 57)) || c == '_'

/-- Collapse every run of consecutive `_` into a single `_`. -/
def underscoreCollapse : List Char → List Char
  | [] => []
  | [c] => [c]
  | c :: d :: rest =>
    if c == '_' && d == '_' then underscoreCollapse (d :: rest)
    else c :: underscoreCollapse (d :: rest)

/-- Trim leading and trailing `_`. -/
def trimUnderscores (l : List Char) : List Char :=
  (((l.dropWhile fun c => c == '_').reverse.dropWhile
    fun c => c == '_').reverse)

/-- Modelled from the spec: `normalizeString` (absent from the sources,
only `TestNormalizeString` is present) — replace every character outside
`[A-Za-z0-9_]` with `_`, collapse consecutive `_` runs into one, trim
leading and trailing `_`. -/
def normalizeString (s : String) : String :=
  String.mk (trimUnderscores (underscoreCollapse
    (s.data.map fun c => if isLabelChar c then c else '_')))

end Cryptarch

namespace Cryptarch

/-! ## Helper lemmas about the storage operations -/

theorem getFirst_of_no_match (l : List Result) (t : ℤ)
    (h : ∀ x ∈ l, x.time ≠ t) : getFirst l t = emptyResult := by
  induction l with
  | nil => rfl
  | cons x rest ih =>
    simp only [getFirst]
    rw [if_neg (h x (List.mem_cons_self x rest))]
    exact ih fun y hy => h y (List.mem_cons_of_mem x hy)

theorem getFirst_of_first_match (l : List Result) (t : ℤ) (n : ℕ)
    (hn : n < l.length) (hx : (l.get ⟨n, hn⟩).time = t)
    (hfirst : ∀ j (hj : j < n), (l.get ⟨j, Nat.lt_trans hj hn⟩).time ≠ t) :
    getFirst l t = l.get ⟨n, hn⟩ := by
  induction l generalizing n with
  | nil => exact absurd hn (by simp)
  | cons x rest ih =>
    cases n with
    | zero =>
      simp only [List.get] at hx ⊢
      simp [getFirst, hx]
    | succ m =>
      have hx0 : x.time ≠ t := by
        simpa using hfirst 0 (Nat.succ_pos m)
      simp only [getFirst, List.get] at hx ⊢
      rw [if_neg hx0]
      exact ih m (by simpa using hn) hx
        (fun j hj => by simpa using hfirst (j + 1) (by omega))

theorem slicesIndexAux_of_not_mem (l : List String) (x : String) (i : ℤ)
    (h : x ∉ l) : slicesIndexAux l x i = -1 := by
  induction l generalizing i with
  | nil => rfl
  | cons a rest ih =>
    simp only [slicesIndexAux]
    rw [if_neg (by rintro rfl; exact h (List.mem_cons_self a rest))]
    exact ih (i + 1) fun hx => h (List.mem_cons_of_mem a hx)

theorem slicesIndexAux_of_first_match (l : List String) (x : String) (i : ℤ)
    (n : ℕ) (hn : n < l.length) (hx : l.get ⟨n, hn⟩ = x)
    (hfirst : ∀ j (hj : j < n), l.get ⟨j, Nat.lt_trans hj hn⟩ ≠ x) :
    slicesIndexAux l x i = i + n := by
  induction l generalizing n i with
  | nil => exact absurd hn (by simp)
  | cons a rest ih =>
    cases n with
    | zero =>
      simp only [List.get] at hx
      simp [slicesIndexAux, hx]
    | succ m =>
      have ha : a ≠ x := by
        simpa using hfirst 0 (Nat.succ_pos m)
      simp only [slicesIndexAux, List.get] at hx ⊢
      rw [if_neg ha]
      rw [ih (i + 1) m (by simpa using hn) hx
        (fun j hj => by simpa using hfirst (j + 1) (by omega))]
      push_cast
      ring

theorem getRangeList_eq_filter (l : List Result) (s e : ℤ)
    (hsorted : l.Pairwise fun a b => a.time ≤ b.time) :
    getRangeList l s e =
      l.filter fun x => decide (s ≤ x.time) && decide (x.time ≤ e) := by
  induction l with
  | nil => rfl
  | cons x rest ih =>
    rw [List.pairwise_cons] at hsorted
    obtain ⟨hx, hrest⟩ := hsorted
    simp only [getRangeList, List.filter]
    by_cases h1 : s ≤ x.time
    · rw [if_pos h1]
      by_cases h2 : e < x.time
      · rw [if_pos h2]
        have hfail : ∀ y ∈ rest,
            ¬(decide (s ≤ y.time) && decide (y.time ≤ e)) = true := by
          intro y hy
          have : e < y.time := lt_of_lt_of_le h2 (hx y hy)
          simp [not_le.mpr this]
        rw [List.filter_eq_nil_iff.mpr hfail]
        simp [not_le.mpr h2]
      · rw [if_neg h2]
        have : (decide (s ≤ x.time) && decide (x.time ≤ e)) = true := by
          simp [h1, not_lt.mp h2]
        rw [this, ih hrest]
    · rw [if_neg h1]
      have : (decide (s ≤ x.time) && decide (x.time ≤ e)) = false := by
        simp [h1]
      rw [this, ih hrest]

theorem goIsSpace_of_mask (c : Char) (h : inGoWhitespaceMask c = true) :
    goIsSpace c = true := by
  simp only [inGoWhitespaceMask, Bool.or_eq_true, beq_iff_eq] at h
  rcases h with ((h | h) | h) | h <;> subst h <;> decide

theorem scanAux_eq_specSplitAux (l : List Char) :
    ∀ acc, (∀ c ∈ l, goIsSpace c = true → inGoWhitespaceMask c = true) →
      scanAux l acc = specSplitAux l acc := by
  induction l with
  | nil => intro acc _; rfl
  | cons c cs ih =>
    intro acc h
    have hcs : ∀ x ∈ cs, goIsSpace x = true → inGoWhitespaceMask x = true :=
      fun x hx => h x (List.mem_cons_of_mem c hx)
    simp only [scanAux, specSplitAux]
    by_cases hsp : goIsSpace c
    · have hmask : inGoWhitespaceMask c = true :=
        h c (List.mem_cons_self c cs) hsp
      rw [hsp, hmask]
      simp [ih [] hcs]
    · rw [Bool.not_eq_true] at hsp
      rw [hsp]
      simp only [Bool.not_false, if_true]
      rw [ih (acc ++ [c]) hcs]

/-! ## Claim theorems: storage operations -/

/-- C1. For stored results that are non-decreasing by time, `getRange`
returns exactly the stored results `x` with `start ≤ x.Time ≤ end`, in
their stored (ascending) order. -/
theorem getRange_eq_filter (r : Results) (s e : ℤ)
    (hsorted : r.results.Pairwise fun a b => a.time ≤ b.time) :
    r.getRange s e =
      r.results.filter fun x => decide (s ≤ x.time) && decide (x.time ≤ e) :=
  getRangeList_eq_filter r.results s e hsorted

/-- Witness for C1, on the scenario of `TestResultsGetRange`: two results
30 seconds apart; the full range returns both, the extended range returns
both, and the instant range `getRange t0 t0` returns exactly the first. -/
theorem getRange_eq_filter_witness :
    (({ labels := ["foo", "bar"],
        results := [{ time := 0, value := "foo", values := [] },
                    { time := 30, value := "bar", values := [] }] } :
      Results).getRange 0 30 =
      [{ time := 0, value := "foo", values := [] },
       { time := 30, value := "bar", values := [] }]) ∧
    (({ labels := ["foo", "bar"],
        results := [{ time := 0, value := "foo", values := [] },
                    { time := 30, value := "bar", values := [] }] } :
      Results).getRange (-30) 60 =
      [{ time := 0, value := "foo", values := [] },
       { time := 30, value := "bar", values := [] }]) ∧
    (({ labels := ["foo", "bar"],
        results := [{ time := 0, value := "foo", values := [] },
                    { time := 30, value := "bar", values := [] }] } :
      Results).getRange 0 0 =
      [{ time := 0, value := "foo", values := [] }]) := by
  refine ⟨?_, ?_, ?_⟩ <;>
    rw [getRange_eq_filter _ _ _ (by decide)] <;> decide

/-- C3. `get(t)` returns the first stored result whose time equals `t`,
and the empty `Result{}` sentinel when no stored result has time `t`. -/
theorem get_first_exact_match (r : Results) (t : ℤ) :
    ((∀ x ∈ r.results, x.time ≠ t) → r.get t = emptyResult) ∧
    (∀ n (hn : n < r.results.length), (r.results.get ⟨n, hn⟩).time = t →
      (∀ j (hj : j < n),
        (r.results.get ⟨j, Nat.lt_trans hj hn⟩).time ≠ t) →
      r.get t = r.results.get ⟨n, hn⟩) :=
  ⟨fun h => getFirst_of_no_match r.results t h,
   fun n hn hx hfirst => getFirst_of_first_match r.results t n hn hx hfirst⟩

/-- Witness for C3, on the scenario of `TestResultsGet`: `get` at the
first stored timestamp returns that result, and `get` at an instant
strictly between the two stored timestamps returns the empty sentinel. -/
theorem get_first_exact_match_witness :
    (({ labels := ["foo", "bar"],
        results := [{ time := 0, value := "foo", values := [] },
                    { time := 30, value := "bar", values := [] }] } :
      Results).get 0 = { time := 0, value := "foo", values := [] }) ∧
    (({ labels := ["foo", "bar"],
        results := [{ time := 0, value := "foo", values := [] },
                    { time := 30, value := "bar", values := [] }] } :
      Results).get 15 = emptyResult) := by
  constructor
  · exact (get_first_exact_match _ 0).2 0 (by decide) (by decide)
      (fun j hj => absurd hj (Nat.not_lt_zero j))
  · exact (get_first_exact_match _ 15).1 (by decide)

/-- C6 counterexample. `Values.Get` called with the negative index `-1`
on the empty `Values` takes the `len(v) > index` branch and evaluates
`v[-1]`, a run-time panic (`none` in the panic layer) — refuting
"`Get` never fails on any index". -/
theorem get_neg_one_panics : Values.Get ([] : Values) (-1) = none := by decide

/-- C6 (amended). For every index at or beyond the length of the
sequence, `Values.Get` returns the absent marker (`nil`) without any
fault; `Get` never fails on a non-negative index. -/
theorem get_beyond_length_absent (v : Values) (i : ℤ) :
    ((v.length : ℤ) ≤ i → v.Get i = some none) ∧
    (0 ≤ i → v.Get i ≠ none) := by
  constructor
  · intro h
    simp only [Values.Get]
    rw [if_neg (by omega)]
  · intro h0
    simp only [Values.Get]
    by_cases hlt : (v.length : ℤ) > i
    · rw [if_pos hlt]
      obtain ⟨n, rfl⟩ := Int.eq_ofNat_of_zero_le h0
      have hn : n < v.length := by exact_mod_cast hlt
      simp only [goIndex]
      rw [List.get?_eq_get hn]
      simp
    · rw [if_neg hlt]
      simp

/-- Witness for C6 (amended): on a one-element sequence, index 5 is
beyond the length and yields the absent marker; index 0 does not fault. -/
theorem get_beyond_length_absent_witness :
    Values.Get [Token.text "foo"] 5 = some none ∧
    Values.Get [Token.text "foo"] 0 ≠ none :=
  ⟨(get_beyond_length_absent [Token.text "foo"] 5).1 (by decide),
   (get_beyond_length_absent [Token.text "foo"] 0).2 (by decide)⟩

/-- C7. `Values.Get` is total only for non-negative indexes: for every
negative index `i` the guard `len(v) > i` holds and the access `v[i]`
panics; in particular the `-1` not-found sentinel that `getValueIndex`
yields for an absent filter label (as `GraphDisplay` passes it) makes
`Get` fault rather than return the absent marker. -/
theorem get_neg_index_faults (v : Values) (i : ℤ) (hi : i < 0)
    (r : Results) (filter : String) (hf : filter ∉ r.labels) :
    ((v.length : ℤ) > i ∧ v.Get i = none) ∧
    (r.getValueIndex filter = -1 ∧ v.Get (r.getValueIndex filter) = none) := by
  have hget : ∀ j : ℤ, j < 0 → v.Get j = none := by
    intro j hj
    simp only [Values.Get]
    rw [if_pos (by omega)]
    match j, hj with
    | .negSucc m, _ => rfl
  have hidx : r.getValueIndex filter = -1 :=
    slicesIndexAux_of_not_mem r.labels filter 0 hf
  exact ⟨⟨by omega, hget i hi⟩, ⟨hidx, by rw [hidx]; exact hget (-1) (by omega)⟩⟩

/-- Witness for C7: with labels `["foo", "bar"]` and absent filter
`"baz"`, `getValueIndex` yields `-1` and `Get` at `-1` faults. -/
theorem get_neg_index_faults_witness :
    (((2 : ℕ) : ℤ) > (-1 : ℤ) ∧
      Values.Get [Token.text "a", Token.text "b"] (-1) = none) ∧
    (({ labels := ["foo", "bar"], results := [] } : Results).getValueIndex
        "baz" = -1 ∧
      Values.Get [Token.text "a", Token.text "b"]
        (({ labels := ["foo", "bar"], results := [] } :
          Results).getValueIndex "baz") = none) := by
  have h := get_neg_index_faults ([Token.text "a", Token.text "b"] : Values)
    (-1) (by decide) ({ labels := ["foo", "bar"], results := [] } : Results)
    "baz" (by decide)
  simpa using h

/-- C8. `getValueIndex(l)` returns the position of the first occurrence
of `l` in `Labels`, and the `-1` not-found sentinel when `l` does not
occur; being a total function, the lookup never raises a hard error. -/
theorem getValueIndex_first_occurrence (r : Results) (label : String) :
    (label ∉ r.labels → r.getValueIndex label = -1) ∧
    (∀ n (hn : n < r.labels.length), r.labels.get ⟨n, hn⟩ = label →
      (∀ j (hj : j < n), r.labels.get ⟨j, Nat.lt_trans hj hn⟩ ≠ label) →
      r.getValueIndex label = n) := by
  constructor
  · exact fun h => slicesIndexAux_of_not_mem r.labels label 0 h
  · intro n hn hx hfirst
    have := slicesIndexAux_of_first_match r.labels label 0 n hn hx hfirst
    simpa [Results.getValueIndex] using this

/-- Witness for C8: in labels `["foo", "bar", "bar"]`, the absent label
`"baz"` yields `-1` and `"bar"` yields its first position, 1. -/
theorem getValueIndex_first_occurrence_witness :
    (({ labels := ["foo", "bar", "bar"], results := [] } :
        Results).getValueIndex "baz" = -1) ∧
    (({ labels := ["foo", "bar", "bar"], results := [] } :
        Results).getValueIndex "bar" = 1) := by
  constructor
  · exact (getValueIndex_first_occurrence
      ({ labels := ["foo", "bar", "bar"], results := [] } : Results)
      "baz").1 (by decide)
  · have h := getValueIndex_first_occurrence
      ({ labels := ["foo", "bar", "bar"], results := [] } : Results) "bar"
    have hn : (1 : ℕ) < (["foo", "bar", "bar"] : List String).length := by
      decide
    exact h.2 1 hn rfl
      (fun j hj => by
        have hj0 : j = 0 := by omega
        subst hj0
        simp)

/-- C2. `put(raw, vs…)` appends exactly one `Result` at the end of
`r.Results` whose raw `Value` is `raw` and whose `Values` equal `vs` in
order; the series length increases by exactly one, the previously stored
results and the `Labels` field are unchanged, and the returned `Result`
is the stored one. -/
theorem put_appends_one (r : Results) (now : ℤ) (raw : String) (vs : Values) :
    (r.put now raw vs).1.results = r.results ++ [(r.put now raw vs).2] ∧
    (r.put now raw vs).2.value = raw ∧
    (r.put now raw vs).2.values = vs ∧
    (r.put now raw vs).1.labels = r.labels ∧
    (r.put now raw vs).1.results.length = r.results.length + 1 := by
  refine ⟨rfl, rfl, rfl, rfl, ?_⟩
  simp [Results.put]

/-- C4. `IsEmpty` holds exactly on the all-zero value: zero time, empty
raw text and empty `Values`. -/
theorem isEmpty_iff_all_zero (r : Result) :
    r.IsEmpty = true ↔ (r.time = 0 ∧ r.value = "" ∧ r.values = []) := by
  constructor
  · intro h
    have : r = emptyResult := by
      simpa [Result.IsEmpty] using h
    subst this
    exact ⟨rfl, rfl, rfl⟩
  · rintro ⟨h1, h2, h3⟩
    have : r = emptyResult := by
      cases r
      simp_all [emptyResult]
    simp [Result.IsEmpty, this]

/-! ## Claim theorems: tokenizer -/

/-- C5 counterexample.  On `"a\x0Bb"` (a vertical tab between two
letters) `TokenizeResult` emits the whitespace character `\x0B` as a
token of its own — the vertical tab is whitespace (`unicode.IsSpace`,
the very predicate `TokenizeResult` configures the scanner with) but is
not in the scanner's whitespace-skip set — so the output is not the
maximal non-whitespace runs `["a", "b"]` the claim requires. -/
theorem tokenize_vtab_counterexample :
    TokenizeResult "a\x0Bb" = [.text "a", .text "\x0B", .text "b"] ∧
    specTokenize "a\x0Bb" = [.text "a", .text "b"] ∧
    TokenizeResult "a\x0Bb" ≠ specTokenize "a\x0Bb" :=
  ⟨by decide, by decide, by decide⟩

/-- C5 (amended).  For every input whose whitespace characters all lie in
the scanner's skip set (space, tab, newline, carriage return — so no
vertical tab, form feed or other Unicode space), `TokenizeResult` splits
the text into its maximal non-whitespace runs, one token per run in
order, and types each token by attempting a base-10 integer parse first,
on failure a floating-point parse, and on failure keeping it as text
(which is exactly `classifyToken`, and empty input yields `[]`). -/
theorem tokenize_eq_spec_on_plain_whitespace (s : String)
    (h : ∀ c ∈ s.data, goIsSpace c = true → inGoWhitespaceMask c = true) :
    TokenizeResult s = specTokenize s := by
  unfold TokenizeResult specTokenize scanTexts specWhitespaceRuns
  rw [scanAux_eq_specSplitAux s.data [] h]

/-- Witness for C5 on the spec's example: `"3 4.5 foo"` contains only
plain spaces, tokenizes to `[Integer 3, Float 4.5, Text "foo"]`, and
agrees with the spec splitting; the empty input yields `[]`. -/
theorem tokenize_eq_spec_on_plain_whitespace_witness :
    TokenizeResult "3 4.5 foo" = specTokenize "3 4.5 foo" ∧
    TokenizeResult "3 4.5 foo" =
      [.integer 3, .float (.finite (mkRat 9 2)), .text "foo"] ∧
    TokenizeResult "" = [] :=
  ⟨tokenize_eq_spec_on_plain_whitespace "3 4.5 foo" (by decide),
   by decide, by decide⟩

/-! ## Helper lemmas for the label normalizer -/

theorem isLabelChar_of_mem_map_norm (l : List Char) :
    ∀ c ∈ l.map fun c => if isLabelChar c then c else '_',
      isLabelChar c = true := by
  intro c hc
  rw [List.mem_map] at hc
  obtain ⟨a, _, rfl⟩ := hc
  by_cases h : isLabelChar a = true
  · rw [if_pos h]; exact h
  · rw [if_neg h]; decide

theorem map_norm_id (l : List Char) (h : ∀ c ∈ l, isLabelChar c = true) :
    (l.map fun c => if isLabelChar c then c else '_') = l := by
  induction l with
  | nil => rfl
  | cons a tail ih =>
    simp only [List.map_cons]
    rw [if_pos (h a (List.mem_cons_self a tail)),
      ih fun c hc => h c (List.mem_cons_of_mem a hc)]

theorem mem_of_mem_underscoreCollapse (l : List Char) :
    ∀ c ∈ underscoreCollapse l, c ∈ l := by
  induction l with
  | nil => intro c hc; simp [underscoreCollapse] at hc
  | cons a tail ih =>
    cases tail with
    | nil => intro c hc; simpa [underscoreCollapse] using hc
    | cons d rest =>
      intro c hc
      simp only [underscoreCollapse] at hc
      by_cases h : (a == '_' && d == '_') = true
      · rw [if_pos h] at hc
        exact List.mem_cons_of_mem a (ih c hc)
      · rw [if_neg h] at hc
        rcases List.mem_cons.mp hc with rfl | hc'
        · exact List.mem_cons_self _ _
        · exact List.mem_cons_of_mem a (ih c hc')

theorem underscoreCollapse_head? (l : List Char) :
    (underscoreCollapse l).head? = l.head? := by
  induction l with
  | nil => rfl
  | cons a tail ih =>
    cases tail with
    | nil => rfl
    | cons d rest =>
      simp only [underscoreCollapse]
      by_cases h : (a == '_' && d == '_') = true
      · rw [if_pos h, ih]
        have h' : a = '_' ∧ d = '_' := by simpa using h
        simp [h'.1, h'.2]
      · rw [if_neg h]
        rfl

theorem underscoreCollapse_chain (l : List Char) :
    (underscoreCollapse l).Chain' fun a b => ¬(a = '_' ∧ b = '_') := by
  induction l with
  | nil => simp [underscoreCollapse]
  | cons a tail ih =>
    cases tail with
    | nil => simp [underscoreCollapse]
    | cons d rest =>
      simp only [underscoreCollapse]
      by_cases h : (a == '_' && d == '_') = true
      · rw [if_pos h]; exact ih
      · rw [if_neg h, List.chain'_cons']
        refine ⟨?_, ih⟩
        intro y hy
        rw [underscoreCollapse_head? (d :: rest)] at hy
        have hyd : d = y := by simpa using hy
        subst hyd
        simpa using h

theorem underscoreCollapse_of_chain (l : List Char)
    (h : l.Chain' fun a b => ¬(a = '_' ∧ b = '_')) :
    underscoreCollapse l = l := by
  induction l with
  | nil => rfl
  | cons a tail ih =>
    cases tail with
    | nil => rfl
    | cons d rest =>
      rw [List.chain'_cons] at h
      simp only [underscoreCollapse]
      rw [if_neg (by simpa using h.1), ih h.2]

theorem ne_underscore_of_head?_dropWhile (l : List Char) :
    ∀ x, (l.dropWhile fun c => c == '_').head? = some x → x ≠ '_' := by
  induction l with
  | nil => intro x hx; simp at hx
  | cons c t ih =>
    intro x hx
    simp only [List.dropWhile_cons] at hx
    by_cases hc : (c == '_') = true
    · rw [if_pos hc] at hx
      exact ih x hx
    · rw [if_neg hc] at hx
      have hxc : c = x := by simpa using hx
      subst hxc
      simpa using hc

theorem dropWhile_underscore_eq_self (l : List Char)
    (h : ∀ x, l.head? = some x → x ≠ '_') :
    (l.dropWhile fun c => c == '_') = l := by
  cases l with
  | nil => rfl
  | cons c t =>
    have hc : c ≠ '_' := h c rfl
    simp only [List.dropWhile_cons]
    rw [if_neg (by simpa using hc)]

theorem getLast?_dropWhile_underscore (l : List Char)
    (h : (l.dropWhile fun c => c == '_') ≠ []) :
    (l.dropWhile fun c => c == '_').getLast? = l.getLast? := by
  obtain ⟨t, ht⟩ := List.dropWhile_suffix (l := l) fun c => c == '_'
  conv_rhs => rw [← ht]
  rw [List.getLast?_append]
  cases hx : (l.dropWhile fun c => c == '_').getLast? with
  | none => exact absurd (List.getLast?_eq_none_iff.mp hx) h
  | some x => rfl

theorem trimUnderscores_chain (l : List Char)
    (h : l.Chain' fun a b => ¬(a = '_' ∧ b = '_')) :
    (trimUnderscores l).Chain' fun a b => ¬(a = '_' ∧ b = '_') := by
  have himp : ∀ a b : Char, ¬(a = '_' ∧ b = '_') → ¬(b = '_' ∧ a = '_') :=
    fun a b hab => fun k => hab ⟨k.2, k.1⟩
  have h1 := h.suffix (List.dropWhile_suffix fun c => c == '_')
  have h2 := List.chain'_reverse.mpr (h1.imp himp)
  have h3 := h2.suffix (List.dropWhile_suffix fun c => c == '_')
  exact List.chain'_reverse.mpr (h3.imp himp)

theorem trimUnderscores_head?_ne (l : List Char) :
    ∀ x, (trimUnderscores l).head? = some x → x ≠ '_' := by
  intro x hx
  unfold trimUnderscores at hx
  rw [List.head?_reverse] at hx
  have hne : ((l.dropWhile fun c => c == '_').reverse.dropWhile
      fun c => c == '_') ≠ [] := by
    intro hnil
    rw [hnil] at hx
    simp at hx
  rw [getLast?_dropWhile_underscore _ hne, List.getLast?_reverse] at hx
  exact ne_underscore_of_head?_dropWhile l x hx

theorem trimUnderscores_getLast?_ne (l : List Char) :
    ∀ x, (trimUnderscores l).getLast? = some x → x ≠ '_' := by
  intro x hx
  unfold trimUnderscores at hx
  rw [List.getLast?_reverse] at hx
  exact ne_underscore_of_head?_dropWhile _ x hx

theorem trimUnderscores_eq_self (l : List Char)
    (hh : ∀ x, l.head? = some x → x ≠ '_')
    (hl : ∀ x, l.getLast? = some x → x ≠ '_') :
    trimUnderscores l = l := by
  unfold trimUnderscores
  rw [dropWhile_underscore_eq_self l hh]
  rw [dropWhile_underscore_eq_self l.reverse
    (by intro x hx; rw [List.head?_reverse] at hx; exact hl x hx)]
  exact List.reverse_reverse l

theorem mem_of_mem_trimUnderscores (l : List Char) :
    ∀ c ∈ trimUnderscores l, c ∈ l := by
  intro c hc
  unfold trimUnderscores at hc
  rw [List.mem_reverse] at hc
  have hc2 := (List.dropWhile_suffix (fun c => c == '_')).subset hc
  rw [List.mem_reverse] at hc2
  exact (List.dropWhile_suffix fun c => c == '_').subset hc2

/-- C10.  The all-digit token of twenty nines exceeds the signed 64-bit
integer range, so `strconv.ParseInt` fails with a range error, the
subsequent `strconv.ParseFloat` succeeds (the value is far below the
`float64` overflow bound), and `TokenizeResult` classifies the token as
a Float — not an Integer or Text. -/
theorem tokenize_int64_overflow_is_float :
    parseGoInt "99999999999999999999".data = none ∧
    parseGoFloat "99999999999999999999".data =
      some (.finite (mkRat 99999999999999999999 1)) ∧
    TokenizeResult "99999999999999999999" =
      [.float (.finite (mkRat 99999999999999999999 1))] :=
  ⟨by decide, by decide, by decide⟩

/-- C9.  The label normalizer is idempotent —
`normalize(normalize(s)) = normalize(s)` for every `s` — and matches the
`TestNormalizeString` vectors: `"test" ↦ "test"`,
`"foo__bar" ↦ "foo_bar"`, `"!foo1?:bar2!:" ↦ "foo1_bar2"`. -/
theorem normalizeString_idempotent :
    (∀ s : String, normalizeString (normalizeString s) = normalizeString s) ∧
    normalizeString "test" = "test" ∧
    normalizeString "foo__bar" = "foo_bar" ∧
    normalizeString "!foo1?:bar2!:" = "foo1_bar2" := by
  refine ⟨?_, by decide, by decide, by decide⟩
  intro s
  have hlabel : ∀ c ∈ trimUnderscores (underscoreCollapse
      (s.data.map fun c => if isLabelChar c then c else '_')),
      isLabelChar c = true := by
    intro c hc
    exact isLabelChar_of_mem_map_norm s.data c
      (mem_of_mem_underscoreCollapse _ c (mem_of_mem_trimUnderscores _ c hc))
  have hchain := trimUnderscores_chain _ (underscoreCollapse_chain
    (s.data.map fun c => if isLabelChar c then c else '_'))
  have hmap := map_norm_id _ hlabel
  have hcol := underscoreCollapse_of_chain _ hchain
  have htrim := trimUnderscores_eq_self
    (trimUnderscores (underscoreCollapse
      (s.data.map fun c => if isLabelChar c then c else '_')))
    (trimUnderscores_head?_ne _) (trimUnderscores_getLast?_ne _)
  show String.mk (trimUnderscores (underscoreCollapse
    ((normalizeString s).data.map fun c => if isLabelChar c then c else '_')))
    = normalizeString s
  rw [show (normalizeString s).data = trimUnderscores (underscoreCollapse
    (s.data.map fun c => if isLabelChar c then c else '_')) from rfl]
  rw [hmap, hcol, htrim]
  rfl

end Cryptarch
